import Mathlib

/-!
# Serial transport of app_rpt (`apps/app_rpt/rpt_serial.c`)

A shallow embedding of `serial_open`, `serial_rxready`, `serial_rxflush`,
`serial_rx` and `serial_io`, and theorems about them.

Conventions of the embedding

* A byte (`char`) is a `Nat`; only equality and the zero test are used on bytes.
* C `int` values are `Int`.  The only arithmetic on them is `i++` and `i + 1`
  with `0 <= i < rxmaxbytes`, which cannot overflow.
* The operating system is a `Line σ`: three functions over a state `σ` giving
  the outcome of `ast_waitfor_n_fd`, of `read(fd, &c, 1)` and of `write`.
* The caller's buffer `rxbuf` is `Option Buf`: `none` is `NULL`, and `some m`
  is the memory at `rxbuf`, `m j` being the byte `rxbuf[j]`.
* Every function returns, next to its C return value, the list of events
  (system calls and buffer writes) it performed, in order.
* `ast_log` and `ast_debug` lines, the `usleep` calls and the debug dump at the
  end of `serial_rx` have no effect on results and are left out.
-/

namespace RptSerial

/-! ## Data model -/

/-- The memory starting at a non-null `char *rxbuf`: `m j` is `rxbuf[j]`. -/
abbrev Buf := Nat → Nat

/-- Outcome of `read(fd, &c, 1)`: `-1`, `0`, or `1` with the byte placed in `c`. -/
inductive RdRes where
  | fail : RdRes
  | eof : RdRes
  | byte (c : Nat) : RdRes
  deriving DecidableEq

/-- The C return value of `read(fd, &c, 1)`. -/
def RdRes.ret : RdRes → Int
  | RdRes.fail => -1
  | RdRes.eof => 0
  | RdRes.byte _ => 1

/-- Observable actions: system calls with their results, and writes to `rxbuf`. -/
inductive Ev where
  | poll (timeoutms : Int) (res : Int) : Ev
  | read (r : RdRes) : Ev
  | write (txbuf : List Nat) (txbytes : Int) (res : Int) : Ev
  | memset (n : Nat) : Ev
  | store (idx : Nat) (val : Nat) : Ev
  deriving DecidableEq

/-- The serial line behind a file descriptor, as a deterministic environment. -/
structure Line (σ : Type) where
  /-- Result of `ast_waitfor_n_fd(&fd, 1, &myms, NULL)` with `myms = timeoutms`. -/
  waitfor : σ → Int → Int × σ
  /-- Result of `read(fd, &c, 1)`. -/
  read : σ → RdRes × σ
  /-- Result of `write(fd, txbuf, txbytes)`. -/
  write : σ → List Nat → Int → Int × σ

/-- Return value, line state, buffer and performed events of a call. -/
structure Out (σ : Type) (β : Type) where
  ret : Int
  line : σ
  buf : β
  evs : List Ev
  deriving DecidableEq

/-- The same outcome with the events `es` performed before it. -/
def Out.pre {σ β : Type} (es : List Ev) (o : Out σ β) : Out σ β :=
  { o with evs := es ++ o.evs }

/-- How one pass through the body of the `for` loop of `serial_rx` leaves it. -/
inductive Ctl where
  | ret (r : Int) : Ctl
  | brk : Ctl
  | next : Ctl
  deriving DecidableEq

/-- State after one pass through the loop body of `serial_rx`. -/
structure Body (σ : Type) where
  ctl : Ctl
  line : σ
  buf : Buf
  evs : List Ev

/-- The same pass with the events `es` performed before it. -/
def Body.pre {σ : Type} (es : List Ev) (b : Body σ) : Body σ :=
  { b with evs := es ++ b.evs }

/-! ## Machine-level helpers -/

/-- Conversion of an `int` argument to `size_t` (64 bit), as in `memset(p, 0, n)`. -/
def size_t_of_int (n : Int) : Nat := (n % 2 ^ 64).toNat

/-- Conversion of `unsigned timeoutms` to the `int` parameter of `serial_rxready`. -/
def int_of_unsigned (u : Nat) : Int :=
  if u % 2 ^ 32 < 2 ^ 31 then ((u % 2 ^ 32 : Nat) : Int) else ((u % 2 ^ 32 : Nat) : Int) - 2 ^ 32

/-- The assignment `rxbuf[idx] = val`. -/
def bufSet (m : Buf) (idx val : Nat) : Buf := fun j => if j = idx then val else m j

/-- The call `memset(rxbuf, 0, n)`: bytes `0 .. n-1` become zero. -/
def memset0 (m : Buf) (n : Nat) : Buf := fun j => if j < n then 0 else m j

/-! ## `serial_rxready` and `serial_rxflush` -/

/-- `serial_rxready(fd, timeoutms)`: the result of `ast_waitfor_n_fd`. -/
def serial_rxready {σ : Type} (L : Line σ) (s : σ) (timeoutms : Int) : Out σ Unit :=
  let p := L.waitfor s timeoutms
  ⟨p.1, p.2, (), [Ev.poll timeoutms p.1]⟩

/-- The `while` loop of `serial_rxflush` followed by its `return`.  The loop has
no bound of its own, so the embedding counts iterations down from `fuel` and
gives `none` when they run out.  `flushed` is the C variable: the statement
`flushed++` stands after `break` and is never executed. -/
def rxflushLoop {σ : Type} (L : Line σ) (timeoutms : Int) : Nat → Int → σ → Option (Out σ Unit)
  | 0, _, _ => none
  | fuel + 1, flushed, s =>
    let p := serial_rxready L s timeoutms
    if p.ret = 1 then
      let r := L.read p.line
      if r.1.ret = -1 then
        -- res = -1; break; then `return (res == -1) ? res : flushed`
        some ⟨-1, r.2, (), p.evs ++ [Ev.read r.1]⟩
      else
        (rxflushLoop L timeoutms fuel flushed r.2).map (Out.pre (p.evs ++ [Ev.read r.1]))
    else
      some ⟨if p.ret = -1 then p.ret else flushed, p.line, (), p.evs⟩

/-- `serial_rxflush(fd, timeoutms)`. -/
def serial_rxflush {σ : Type} (L : Line σ) (fuel : Nat) (s : σ) (timeoutms : Int) :
    Option (Out σ Unit) :=
  rxflushLoop L timeoutms fuel 0 s

/-! ## `serial_rx` -/

/-- Lines 100-112 of the loop body: read one byte, store it, look for the terminator. -/
def rxReadStore {σ : Type} (L : Line σ) (termchr : Nat) (i : Nat) (s : σ) (m : Buf) : Body σ :=
  let r := L.read s
  match r.1 with
  | RdRes.fail => ⟨Ctl.ret (-1), r.2, m, [Ev.read RdRes.fail]⟩
  | RdRes.eof => ⟨Ctl.ret i, r.2, m, [Ev.read RdRes.eof]⟩
  | RdRes.byte c =>
    if termchr ≠ 0 then
      if c = termchr then
        ⟨Ctl.brk, r.2, bufSet (bufSet m i c) (i + 1) 0,
          [Ev.read (RdRes.byte c), Ev.store i c, Ev.store (i + 1) 0]⟩
      else
        ⟨Ctl.next, r.2, bufSet (bufSet m i c) (i + 1) 0,
          [Ev.read (RdRes.byte c), Ev.store i c, Ev.store (i + 1) 0]⟩
    else
      ⟨Ctl.next, r.2, bufSet m i c, [Ev.read (RdRes.byte c), Ev.store i c]⟩

/-- One pass through the body of the `for` loop (lines 92-112). -/
def rxBody {σ : Type} (L : Line σ) (timeoutms termchr : Nat) (i : Nat) (s : σ) (m : Buf) :
    Body σ :=
  if timeoutms ≠ 0 then
    let p := serial_rxready L s (int_of_unsigned timeoutms)
    if p.ret < 0 then ⟨Ctl.ret (-1), p.line, m, p.evs⟩
    else if p.ret = 0 then ⟨Ctl.brk, p.line, m, p.evs⟩
    else (rxReadStore L termchr i p.line m).pre p.evs
  else rxReadStore L termchr i s m

/-- The loop `for (i = ...; i < rxmaxbytes; i++)` followed by `return i`.  The first
argument is the number of passes left, `rxmaxbytes - i`: the test `i < rxmaxbytes`
fails exactly when it is zero. -/
def rxLoop {σ : Type} (L : Line σ) (timeoutms termchr : Nat) : Nat → Nat → σ → Buf → Out σ Buf
  | 0, i, s, m => ⟨i, s, m, []⟩
  | n + 1, i, s, m =>
    let b := rxBody L timeoutms termchr i s m
    match b.ctl with
    | Ctl.ret r => ⟨r, b.line, b.buf, b.evs⟩
    | Ctl.brk => ⟨i, b.line, b.buf, b.evs⟩
    | Ctl.next => (rxLoop L timeoutms termchr n (i + 1) b.line b.buf).pre b.evs

/-- `serial_rx(fd, rxbuf, rxmaxbytes, timeoutms, termchr)`. -/
def serial_rx {σ : Type} (L : Line σ) (s : σ) (rxbuf : Option Buf) (rxmaxbytes : Int)
    (timeoutms termchr : Nat) : Out σ (Option Buf) :=
  match rxbuf with
  | none => ⟨0, s, none, []⟩
  | some m =>
    if rxmaxbytes = 0 then ⟨0, s, some m, []⟩
    else
      let n := size_t_of_int rxmaxbytes
      let o := rxLoop L timeoutms termchr rxmaxbytes.toNat 0 s (memset0 m n)
      ⟨o.ret, o.line, some o.buf, Ev.memset n :: o.evs⟩

/-! ## `serial_io` -/

/-- Lines 151-156 of `serial_io`: the `write` and, when it accepted `txbytes`
bytes, `serial_rx`.  `es` are the events performed before. -/
def ioWriteRx {σ : Type} (L : Line σ) (es : List Ev) (s : σ) (txbuf : List Nat)
    (rxbuf : Option Buf) (txbytes rxmaxbytes : Int) (timeoutms termchr : Nat) :
    Out σ (Option Buf) :=
  let w := L.write s txbuf txbytes
  if w.1 ≠ txbytes then
    ⟨-1, w.2, rxbuf, es ++ [Ev.write txbuf txbytes w.1]⟩
  else
    (serial_rx L w.2 rxbuf rxmaxbytes timeoutms termchr).pre
      (es ++ [Ev.write txbuf txbytes w.1])

/-- `serial_io(fd, txbuf, rxbuf, txbytes, rxmaxbytes, timeoutms, termchr)`.
`fuel` bounds the flush loop. -/
def serial_io {σ : Type} (L : Line σ) (fuel : Nat) (s : σ) (txbuf : List Nat)
    (rxbuf : Option Buf) (txbytes rxmaxbytes : Int) (timeoutms termchr : Nat) :
    Option (Out σ (Option Buf)) :=
  if rxmaxbytes ≠ 0 ∧ rxbuf.isSome then
    match serial_rxflush L fuel s 10 with
    | none => none
    | some f =>
      if f.ret = -1 then some ⟨-1, f.line, rxbuf, f.evs⟩
      else some (ioWriteRx L f.evs f.line txbuf rxbuf txbytes rxmaxbytes timeoutms termchr)
  else
    some (ioWriteRx L [] s txbuf rxbuf txbytes rxmaxbytes timeoutms termchr)

/-! ## `serial_open` -/

/-- The fields of `struct termios` that `serial_open` touches. -/
structure Termios where
  c_iflag : Nat
  c_oflag : Nat
  c_cflag : Nat
  c_lflag : Nat
  vtime : Nat
  vmin : Nat
  deriving DecidableEq

/-- Flag values of `<termios.h>`, a system header: the Linux values. -/
def IGNBRK : Nat := 0o1
def BRKINT : Nat := 0o2
def PARMRK : Nat := 0o10
def ISTRIP : Nat := 0o40
def INLCR : Nat := 0o100
def IGNCR : Nat := 0o200
def ICRNL : Nat := 0o400
def IXON : Nat := 0o2000
def IBAUD0 : Nat := 0o20000000000
def OPOST : Nat := 0o1
def ISIG : Nat := 0o1
def ICANON : Nat := 0o2
def ECHO : Nat := 0o10
def ECHONL : Nat := 0o100
def IEXTEN : Nat := 0o100000
def CBAUD : Nat := 0o10017
def CSIZE : Nat := 0o60
def CS8 : Nat := 0o60
def CSTOPB : Nat := 0o100
def PARENB : Nat := 0o400
def CRTSCTS : Nat := 0o20000000000
def B9600 : Nat := 0o15
def B57600 : Nat := 0o10001
def MAX_BAUD : Nat := 0o10017

/-- The C expression `x & ~mask` on the 32-bit `tcflag_t`. -/
def clearBits (x mask : Nat) : Nat := x &&& (0xFFFFFFFF ^^^ (mask % 2 ^ 32))

/-- The C test `flags & mask` being non-zero. -/
def hasFlag (flags mask : Nat) : Bool := flags &&& mask != 0

/-- The libc call `cfmakeraw(&mode)`, as its manual page defines it. -/
def cfmakeraw (t : Termios) : Termios :=
  { c_iflag := clearBits t.c_iflag
      (IGNBRK ||| BRKINT ||| PARMRK ||| ISTRIP ||| INLCR ||| IGNCR ||| ICRNL ||| IXON)
    c_oflag := clearBits t.c_oflag OPOST
    c_lflag := clearBits t.c_lflag (ECHO ||| ECHONL ||| ICANON ||| ISIG ||| IEXTEN)
    c_cflag := clearBits t.c_cflag (CSIZE ||| PARENB) ||| CS8
    vtime := 0
    vmin := 1 }

/-- Whether libc accepts `speed` as a baud constant (otherwise `EINVAL`, no change). -/
def validSpeed (speed : Nat) : Bool :=
  clearBits speed CBAUD == 0 || (B57600 ≤ speed && speed ≤ MAX_BAUD)

/-- The libc call `cfsetispeed(&mode, speed)`. -/
def cfsetispeed (t : Termios) (speed : Nat) : Termios :=
  if validSpeed speed then
    if speed = 0 then { t with c_iflag := t.c_iflag ||| IBAUD0 }
    else { t with c_iflag := clearBits t.c_iflag IBAUD0,
                  c_cflag := clearBits t.c_cflag CBAUD ||| speed }
  else t

/-- The libc call `cfsetospeed(&mode, speed)`. -/
def cfsetospeed (t : Termios) (speed : Nat) : Termios :=
  if validSpeed speed then { t with c_cflag := clearBits t.c_cflag CBAUD ||| speed }
  else t

/-- What the operating system answers to `serial_open`: the descriptor from `open`
(`-1` on failure), the attributes from `tcgetattr` (`none` when it fails) and
whether `tcsetattr` accepts the attributes it is given. -/
structure Tty where
  fd : Int
  attrs : Option Termios
  setOk : Termios → Bool

/-- Lines 36-47: the raw-mode block chosen at build time by `SOLARIS`. -/
def rawMode (solaris : Bool) (mode : Termios) (stop2 : Int) : Termios :=
  if solaris then
    let m1 : Termios :=
      { mode with
        c_iflag := clearBits mode.c_iflag
          (IGNBRK ||| BRKINT ||| PARMRK ||| ISTRIP ||| INLCR ||| IGNCR ||| ICRNL ||| IXON)
        c_lflag := clearBits mode.c_lflag (ECHO ||| ECHONL ||| ICANON ||| ISIG ||| IEXTEN)
        c_cflag := clearBits mode.c_cflag (CSIZE ||| PARENB ||| CRTSCTS) ||| CS8 }
    let m2 : Termios := if stop2 ≠ 0 then { m1 with c_cflag := m1.c_cflag ||| CSTOPB } else m1
    { m2 with vtime := 3, vmin := 1 }
  else cfmakeraw mode

/-- `serial_open(fname, speed, stop2)`: the return value and the attributes handed
to `tcsetattr` (`none` when `tcsetattr` is not reached). -/
def serial_open (solaris : Bool) (tty : Tty) (speed : Nat) (stop2 : Int) : Int × Option Termios :=
  if tty.fd = -1 then (-1, none)
  else
    match tty.attrs with
    | none => (-1, none)
    | some got =>
      let mode := cfsetospeed (cfsetispeed (rawMode solaris got stop2) speed) speed
      if tty.setOk mode then (tty.fd, some mode) else (-1, some mode)

/-! ## Environments used in the statements -/

/-- A line that is a queue of bytes.  The poll returns `ready` while the queue is
non-empty and `0` (timed out) when it is empty; a read takes the first byte; a
write returns `accepted txbuf txbytes` and makes the peer append its response
`peer tx` to the queue, `tx` being the first `txbytes` bytes of `txbuf`.  A read on
the empty queue has no byte to deliver: it gives end of file when `eofOnEmpty`
and fails otherwise. -/
def queueLine (ready : Int) (peer : List Nat → List Nat) (accepted : List Nat → Int → Int)
    (eofOnEmpty : Bool) : Line (List Nat) where
  waitfor q _ := (if q.isEmpty then 0 else ready, q)
  read q :=
    match q with
    | [] => (if eofOnEmpty then RdRes.eof else RdRes.fail, [])
    | c :: rest => (RdRes.byte c, rest)
  write q txbuf txbytes := (accepted txbuf txbytes, q ++ peer (txbuf.take txbytes.toNat))

/-- A `write` that accepts all `txbytes` bytes. -/
def acceptAll : List Nat → Int → Int := fun _ txbytes => txbytes

/-- State of a scripted line: the results still to be given by the polls, the
reads and the writes. -/
structure Script where
  polls : List Int
  reads : List RdRes
  writes : List Int
  deriving DecidableEq

/-- A line that plays a script: each poll, read and write takes the next entry of
its list; when a list is used up the poll reports not ready, the read reports
end of file and the write accepts all `txbytes` bytes. -/
def scriptLine : Line Script where
  waitfor s _ := (s.polls.headD 0, { s with polls := s.polls.tail })
  read s := (s.reads.headD RdRes.eof, { s with reads := s.reads.tail })
  write s _ txbytes := (s.writes.headD txbytes, { s with writes := s.writes.tail })

/-- The poll and read outcomes `serial_rx` treats as failures. -/
def isFailure : Ev → Bool
  | Ev.poll _ res => decide (res < 0)
  | Ev.read RdRes.fail => true
  | _ => false

/-- The poll and read outcomes that end `serial_rx` early without failure:
a poll that timed out and a zero-length read. -/
def isQuiet : Ev → Bool
  | Ev.poll _ res => decide (res = 0)
  | Ev.read RdRes.eof => true
  | _ => false

/-- Whether the event writes the byte `rxbuf[j]`. -/
def writesIdx (j : Nat) : Ev → Bool
  | Ev.memset n => decide (j < n)
  | Ev.store idx _ => decide (j = idx)
  | _ => false

/-- The bytes delivered by the reads among the events, in order. -/
def readBytes : List Ev → List Nat
  | [] => []
  | Ev.read (RdRes.byte c) :: es => c :: readBytes es
  | _ :: es => readBytes es

/-- Runs the line from `s` through one poll and one read per byte of `bytes`,
checking that each poll reports ready and each read delivers that byte; gives the
line state afterwards. -/
def deliversFrom {σ : Type} (L : Line σ) (t : Int) : σ → List Nat → Option σ
  | s, [] => some s
  | s, c :: cs =>
    let p := L.waitfor s t
    if 0 < p.1 then
      match L.read p.2 with
      | (RdRes.byte d, s2) => if d = c then deliversFrom L t s2 cs else none
      | _ => none
    else none

/-- The poll of a pass through the loop body of `serial_rx` that goes on to the
read: its events and the line state after it (no poll when `timeoutms` is zero). -/
def pollPass {σ : Type} (L : Line σ) (timeoutms : Nat) (s : σ) : List Ev × σ :=
  if timeoutms ≠ 0 then
    ([Ev.poll (int_of_unsigned timeoutms) (L.waitfor s (int_of_unsigned timeoutms)).1],
      (L.waitfor s (int_of_unsigned timeoutms)).2)
  else ([], s)

/-- Whether the event is a `write` on the line. -/
def isWrite : Ev → Bool
  | Ev.write _ _ _ => true
  | _ => false

/-- Whether the event modifies `rxbuf`. -/
def isBufWrite : Ev → Bool
  | Ev.memset _ => true
  | Ev.store _ _ => true
  | _ => false

/-! ## Theorems -/

theorem rxLoop_zero {σ : Type} (L : Line σ) (t term i : Nat) (s : σ) (m : Buf) :
    rxLoop L t term 0 i s m = ⟨i, s, m, []⟩ := rfl

theorem rxLoop_succ {σ : Type} (L : Line σ) (t term n i : Nat) (s : σ) (m : Buf) :
    rxLoop L t term (n + 1) i s m =
      match (rxBody L t term i s m).ctl with
      | Ctl.ret r => ⟨r, (rxBody L t term i s m).line, (rxBody L t term i s m).buf,
          (rxBody L t term i s m).evs⟩
      | Ctl.brk => ⟨i, (rxBody L t term i s m).line, (rxBody L t term i s m).buf,
          (rxBody L t term i s m).evs⟩
      | Ctl.next => (rxLoop L t term n (i + 1) (rxBody L t term i s m).line
          (rxBody L t term i s m).buf).pre (rxBody L t term i s m).evs := rfl

theorem rxBody_poll_err {σ : Type} (L : Line σ) (t term i : Nat) (s : σ) (m : Buf)
    (ht : t ≠ 0) (h : (L.waitfor s (int_of_unsigned t)).1 < 0) :
    rxBody L t term i s m = ⟨Ctl.ret (-1), (L.waitfor s (int_of_unsigned t)).2, m,
      [Ev.poll (int_of_unsigned t) (L.waitfor s (int_of_unsigned t)).1]⟩ := by
  simp [rxBody, serial_rxready, ht, h]

theorem rxBody_poll_timeout {σ : Type} (L : Line σ) (t term i : Nat) (s : σ) (m : Buf)
    (ht : t ≠ 0) (h : (L.waitfor s (int_of_unsigned t)).1 = 0) :
    rxBody L t term i s m = ⟨Ctl.brk, (L.waitfor s (int_of_unsigned t)).2, m,
      [Ev.poll (int_of_unsigned t) 0]⟩ := by
  simp [rxBody, serial_rxready, ht, h]

theorem rxBody_read {σ : Type} (L : Line σ) (t term i : Nat) (s : σ) (m : Buf)
    (h : t ≠ 0 → 0 < (L.waitfor s (int_of_unsigned t)).1) :
    rxBody L t term i s m =
      (rxReadStore L term i (pollPass L t s).2 m).pre (pollPass L t s).1 := by
  by_cases ht : t = 0
  · simp [rxBody, pollPass, ht, Body.pre]
  · have h1 := h ht
    have h2 : ¬ (L.waitfor s (int_of_unsigned t)).1 < 0 := by omega
    have h3 : ¬ (L.waitfor s (int_of_unsigned t)).1 = 0 := by omega
    simp [rxBody, pollPass, ht, serial_rxready, h2, h3]

theorem rxLoop_ind {σ : Type} (L : Line σ) (t term : Nat)
    (P : Nat → Nat → σ → Buf → Out σ Buf → Prop)
    (hdone : ∀ i s m, P 0 i s m ⟨i, s, m, []⟩)
    (hperr : ∀ n i s m, t ≠ 0 → (L.waitfor s (int_of_unsigned t)).1 < 0 →
      P (n + 1) i s m ⟨-1, (L.waitfor s (int_of_unsigned t)).2, m,
        [Ev.poll (int_of_unsigned t) (L.waitfor s (int_of_unsigned t)).1]⟩)
    (hpto : ∀ n i s m, t ≠ 0 → (L.waitfor s (int_of_unsigned t)).1 = 0 →
      P (n + 1) i s m ⟨i, (L.waitfor s (int_of_unsigned t)).2, m,
        [Ev.poll (int_of_unsigned t) 0]⟩)
    (hfail : ∀ n i s m, (t ≠ 0 → 0 < (L.waitfor s (int_of_unsigned t)).1) →
      (L.read (pollPass L t s).2).1 = RdRes.fail →
      P (n + 1) i s m ⟨-1, (L.read (pollPass L t s).2).2, m,
        (pollPass L t s).1 ++ [Ev.read RdRes.fail]⟩)
    (heof : ∀ n i s m, (t ≠ 0 → 0 < (L.waitfor s (int_of_unsigned t)).1) →
      (L.read (pollPass L t s).2).1 = RdRes.eof →
      P (n + 1) i s m ⟨i, (L.read (pollPass L t s).2).2, m,
        (pollPass L t s).1 ++ [Ev.read RdRes.eof]⟩)
    (hterm : ∀ n i s m c, (t ≠ 0 → 0 < (L.waitfor s (int_of_unsigned t)).1) →
      (L.read (pollPass L t s).2).1 = RdRes.byte c → term ≠ 0 → c = term →
      P (n + 1) i s m ⟨i, (L.read (pollPass L t s).2).2, bufSet (bufSet m i c) (i + 1) 0,
        (pollPass L t s).1 ++ [Ev.read (RdRes.byte c), Ev.store i c, Ev.store (i + 1) 0]⟩)
    (hmark : ∀ n i s m c, (t ≠ 0 → 0 < (L.waitfor s (int_of_unsigned t)).1) →
      (L.read (pollPass L t s).2).1 = RdRes.byte c → term ≠ 0 → c ≠ term →
      P n (i + 1) (L.read (pollPass L t s).2).2 (bufSet (bufSet m i c) (i + 1) 0)
        (rxLoop L t term n (i + 1) (L.read (pollPass L t s).2).2
          (bufSet (bufSet m i c) (i + 1) 0)) →
      P (n + 1) i s m ((rxLoop L t term n (i + 1) (L.read (pollPass L t s).2).2
          (bufSet (bufSet m i c) (i + 1) 0)).pre
        ((pollPass L t s).1 ++ [Ev.read (RdRes.byte c), Ev.store i c, Ev.store (i + 1) 0])))
    (hplain : ∀ n i s m c, (t ≠ 0 → 0 < (L.waitfor s (int_of_unsigned t)).1) →
      (L.read (pollPass L t s).2).1 = RdRes.byte c → term = 0 →
      P n (i + 1) (L.read (pollPass L t s).2).2 (bufSet m i c)
        (rxLoop L t term n (i + 1) (L.read (pollPass L t s).2).2 (bufSet m i c)) →
      P (n + 1) i s m ((rxLoop L t term n (i + 1) (L.read (pollPass L t s).2).2
          (bufSet m i c)).pre
        ((pollPass L t s).1 ++ [Ev.read (RdRes.byte c), Ev.store i c]))) :
    ∀ n i s m, P n i s m (rxLoop L t term n i s m) := by
  intro n
  induction n with
  | zero => intro i s m; exact hdone i s m
  | succ n ih =>
    intro i s m
    rw [rxLoop_succ]
    by_cases hp : t ≠ 0 → 0 < (L.waitfor s (int_of_unsigned t)).1
    · rw [rxBody_read L t term i s m hp]
      rcases hr : (L.read (pollPass L t s).2).1 with _ | _ | c
      · have := hfail n i s m hp hr
        simpa [rxReadStore, Body.pre, hr] using this
      · have := heof n i s m hp hr
        simpa [rxReadStore, Body.pre, hr] using this
      · by_cases hz : term = 0
        · have := hplain n i s m c hp hr hz (ih _ _ _)
          simpa [rxReadStore, Body.pre, hr, hz] using this
        · by_cases hc : c = term
          · have := hterm n i s m c hp hr hz hc
            simpa [rxReadStore, Body.pre, hr, hz, hc] using this
          · have := hmark n i s m c hp hr hz hc (ih _ _ _)
            simpa [rxReadStore, Body.pre, hr, hz, hc] using this
    · push_neg at hp
      obtain ⟨ht, hle⟩ := hp
      by_cases h0 : (L.waitfor s (int_of_unsigned t)).1 = 0
      · rw [rxBody_poll_timeout L t term i s m ht h0]
        exact hpto n i s m ht h0
      · have hneg : (L.waitfor s (int_of_unsigned t)).1 < 0 := by omega
        rw [rxBody_poll_err L t term i s m ht hneg]
        exact hperr n i s m ht hneg

@[simp] theorem Out.pre_ret {σ β : Type} (es : List Ev) (o : Out σ β) : (o.pre es).ret = o.ret := rfl

@[simp] theorem Out.pre_evs {σ β : Type} (es : List Ev) (o : Out σ β) :
    (o.pre es).evs = es ++ o.evs := rfl

@[simp] theorem Out.pre_buf {σ β : Type} (es : List Ev) (o : Out σ β) : (o.pre es).buf = o.buf := rfl

@[simp] theorem Out.pre_line {σ β : Type} (es : List Ev) (o : Out σ β) :
    (o.pre es).line = o.line := rfl

theorem pollPass_evs {σ : Type} (L : Line σ) (t : Nat) (s : σ)
    (h : t ≠ 0 → 0 < (L.waitfor s (int_of_unsigned t)).1) :
    (pollPass L t s).1 = [] ∨
      ∃ r : Int, 0 < r ∧ (pollPass L t s).1 = [Ev.poll (int_of_unsigned t) r] := by
  by_cases ht : t = 0
  · left; simp [pollPass, ht]
  · right; exact ⟨_, h ht, by simp [pollPass, ht]⟩

theorem rxLoop_ret {σ : Type} (L : Line σ) (t term : Nat) :
    ∀ (n i : Nat) (s : σ) (m : Buf),
      ((rxLoop L t term n i s m).ret = -1 ↔
          ∃ e ∈ (rxLoop L t term n i s m).evs, isFailure e = true) ∧
      ((rxLoop L t term n i s m).ret ≠ -1 →
        (i : Int) ≤ (rxLoop L t term n i s m).ret ∧
          (rxLoop L t term n i s m).ret ≤ (i : Int) + n) ∧
      ((∃ e ∈ (rxLoop L t term n i s m).evs, isQuiet e = true) →
        (rxLoop L t term n i s m).ret ≠ -1) := by
  apply rxLoop_ind L t term (fun n i _ _ o =>
      (o.ret = -1 ↔ ∃ e ∈ o.evs, isFailure e = true) ∧
      (o.ret ≠ -1 → (i : Int) ≤ o.ret ∧ o.ret ≤ (i : Int) + n) ∧
      ((∃ e ∈ o.evs, isQuiet e = true) → o.ret ≠ -1))
  · intro i s m
    simp
  · intro n i s m _ h
    simp [isFailure, isQuiet, h]
    omega
  · intro n i s m _ h
    simp [isFailure, isQuiet]
    omega
  · intro n i s m hp hr
    rcases pollPass_evs L t s hp with h | ⟨r, hr0, h⟩
    · simp [h, isFailure, isQuiet]
    · simp [h, isFailure, isQuiet]
      omega
  · intro n i s m hp hr
    rcases pollPass_evs L t s hp with h | ⟨r, hr0, h⟩
    · simp [h, isFailure, isQuiet]
      omega
    · simp [h, isFailure, isQuiet]
      omega
  · intro n i s m c hp hr hz hc
    rcases pollPass_evs L t s hp with h | ⟨r, hr0, h⟩
    · simp [h, isFailure, isQuiet]
      omega
    · simp [h, isFailure, isQuiet]
      omega
  · intro n i s m c hp hr hz hc ih
    obtain ⟨ih1, ih2, ih3⟩ := ih
    rcases pollPass_evs L t s hp with h | ⟨r, hr0, h⟩
    · simp only [h, Out.pre_ret, Out.pre_evs]
      refine ⟨?_, ?_, ?_⟩
      · rw [ih1]; simp [isFailure]
      · intro hne; have := ih2 hne; push_cast at this ⊢; omega
      · intro hq; apply ih3; simpa [isQuiet] using hq
    · simp only [h, Out.pre_ret, Out.pre_evs]
      refine ⟨?_, ?_, ?_⟩
      · rw [ih1]; simp [isFailure]; omega
      · intro hne; have := ih2 hne; push_cast at this ⊢; omega
      · intro hq; apply ih3
        have hr1 : ¬ r = 0 := by omega
        simpa [isQuiet, hr1] using hq
  · intro n i s m c hp hr hz ih
    obtain ⟨ih1, ih2, ih3⟩ := ih
    rcases pollPass_evs L t s hp with h | ⟨r, hr0, h⟩
    · simp only [h, Out.pre_ret, Out.pre_evs]
      refine ⟨?_, ?_, ?_⟩
      · rw [ih1]; simp [isFailure]
      · intro hne; have := ih2 hne; push_cast at this ⊢; omega
      · intro hq; apply ih3; simpa [isQuiet] using hq
    · simp only [h, Out.pre_ret, Out.pre_evs]
      refine ⟨?_, ?_, ?_⟩
      · rw [ih1]; simp [isFailure]; omega
      · intro hne; have := ih2 hne; push_cast at this ⊢; omega
      · intro hq; apply ih3
        have hr1 : ¬ r = 0 := by omega
        simpa [isQuiet, hr1] using hq

theorem serial_rx_some {σ : Type} (L : Line σ) (s : σ) (m : Buf) (rxmaxbytes : Int)
    (t term : Nat) (h : rxmaxbytes ≠ 0) :
    serial_rx L s (some m) rxmaxbytes t term =
      ⟨(rxLoop L t term rxmaxbytes.toNat 0 s (memset0 m (size_t_of_int rxmaxbytes))).ret,
       (rxLoop L t term rxmaxbytes.toNat 0 s (memset0 m (size_t_of_int rxmaxbytes))).line,
       some (rxLoop L t term rxmaxbytes.toNat 0 s (memset0 m (size_t_of_int rxmaxbytes))).buf,
       Ev.memset (size_t_of_int rxmaxbytes) ::
         (rxLoop L t term rxmaxbytes.toNat 0 s (memset0 m (size_t_of_int rxmaxbytes))).evs⟩ := by
  simp [serial_rx, h]

/-- C5: for `rxmaxbytes > 0` and a non-null buffer, `serial_rx` returns the failure
sentinel `-1` exactly when one of the polls it performed reported an error or one
of its reads failed; every other return value is a non-negative count, and a call
in which a poll timed out or a read returned zero bytes returns such a count. -/
theorem serial_rx_fails_iff_poll_or_read_fails {σ : Type} (L : Line σ) (s : σ) (m : Buf)
    (rxmaxbytes : Int) (timeoutms termchr : Nat) (hmax : 0 < rxmaxbytes) :
    ((serial_rx L s (some m) rxmaxbytes timeoutms termchr).ret = -1 ↔
        ∃ e ∈ (serial_rx L s (some m) rxmaxbytes timeoutms termchr).evs, isFailure e = true) ∧
    ((serial_rx L s (some m) rxmaxbytes timeoutms termchr).ret ≠ -1 →
        0 ≤ (serial_rx L s (some m) rxmaxbytes timeoutms termchr).ret) ∧
    ((∃ e ∈ (serial_rx L s (some m) rxmaxbytes timeoutms termchr).evs, isQuiet e = true) →
        0 ≤ (serial_rx L s (some m) rxmaxbytes timeoutms termchr).ret) := by
  have hne : rxmaxbytes ≠ 0 := by omega
  rw [serial_rx_some L s m rxmaxbytes timeoutms termchr hne]
  obtain ⟨h1, h2, h3⟩ := rxLoop_ret L timeoutms termchr rxmaxbytes.toNat 0 s
    (memset0 m (size_t_of_int rxmaxbytes))
  refine ⟨?_, ?_, ?_⟩
  · simp only [h1]
    simp [isFailure]
  · intro h
    have := (h2 h).1
    simpa using this
  · intro h
    have hq : ∃ e ∈ (rxLoop L timeoutms termchr rxmaxbytes.toNat 0 s
        (memset0 m (size_t_of_int rxmaxbytes))).evs, isQuiet e = true := by
      simpa [isQuiet] using h
    have := (h2 (h3 hq)).1
    simpa using this

/-- C3: for `rxmaxbytes > 0`, a non-null buffer, any timeout and terminator, when no
poll reports an error and no read fails, `serial_rx` returns a count between `0`
and `rxmaxbytes`. -/
theorem serial_rx_count_in_range {σ : Type} (L : Line σ) (s : σ) (m : Buf)
    (rxmaxbytes : Int) (timeoutms termchr : Nat) (hmax : 0 < rxmaxbytes)
    (hok : ∀ e ∈ (serial_rx L s (some m) rxmaxbytes timeoutms termchr).evs, isFailure e = false) :
    0 ≤ (serial_rx L s (some m) rxmaxbytes timeoutms termchr).ret ∧
      (serial_rx L s (some m) rxmaxbytes timeoutms termchr).ret ≤ rxmaxbytes := by
  have hne : rxmaxbytes ≠ 0 := by omega
  rw [serial_rx_some L s m rxmaxbytes timeoutms termchr hne] at hok ⊢
  obtain ⟨h1, h2, _⟩ := rxLoop_ret L timeoutms termchr rxmaxbytes.toNat 0 s
    (memset0 m (size_t_of_int rxmaxbytes))
  have hnf : (rxLoop L timeoutms termchr rxmaxbytes.toNat 0 s
      (memset0 m (size_t_of_int rxmaxbytes))).ret ≠ -1 := by
    intro h
    obtain ⟨e, he, hf⟩ := h1.mp h
    have := hok e (List.mem_cons_of_mem _ he)
    rw [this] at hf
    exact Bool.false_ne_true hf
  have := h2 hnf
  have hn : ((rxmaxbytes.toNat : Nat) : Int) = rxmaxbytes := Int.toNat_of_nonneg (by omega)
  simp only
  omega

theorem readBytes_append (a b : List Ev) : readBytes (a ++ b) = readBytes a ++ readBytes b := by
  induction a with
  | nil => rfl
  | cons e es ih =>
    cases e with
    | read r => cases r <;> simp [readBytes, ih]
    | poll _ _ => simp [readBytes, ih]
    | write _ _ _ => simp [readBytes, ih]
    | memset _ => simp [readBytes, ih]
    | store _ _ => simp [readBytes, ih]

theorem pollPass_readBytes {σ : Type} (L : Line σ) (t : Nat) (s : σ) :
    readBytes (pollPass L t s).1 = [] := by
  by_cases ht : t = 0 <;> simp [pollPass, ht, readBytes]

/-- The buffer after the loop of `serial_rx`: the bytes read, in order, from
index `i` on; below `i` nothing changes; beyond them a byte is unchanged or zero. -/
theorem rxLoop_buf {σ : Type} (L : Line σ) (t term : Nat) :
    ∀ (n i : Nat) (s : σ) (m : Buf),
      (readBytes (rxLoop L t term n i s m).evs).length ≤ n ∧
      (∀ j, j < i → (rxLoop L t term n i s m).buf j = m j) ∧
      (∀ j, j < (readBytes (rxLoop L t term n i s m).evs).length →
        (readBytes (rxLoop L t term n i s m).evs)[j]? =
          some ((rxLoop L t term n i s m).buf (i + j))) ∧
      (∀ j, i + (readBytes (rxLoop L t term n i s m).evs).length ≤ j →
        (rxLoop L t term n i s m).buf j = m j ∨ (rxLoop L t term n i s m).buf j = 0) := by
  apply rxLoop_ind L t term (fun n i _ m o =>
      (readBytes o.evs).length ≤ n ∧
      (∀ j, j < i → o.buf j = m j) ∧
      (∀ j, j < (readBytes o.evs).length → (readBytes o.evs)[j]? = some (o.buf (i + j))) ∧
      (∀ j, i + (readBytes o.evs).length ≤ j → o.buf j = m j ∨ o.buf j = 0))
  · intro i s m
    simp [readBytes]
  · intro n i s m _ _
    simp [readBytes]
  · intro n i s m _ _
    simp [readBytes]
  · intro n i s m _ _
    simp [readBytes_append, pollPass_readBytes, readBytes]
  · intro n i s m _ _
    simp [readBytes_append, pollPass_readBytes, readBytes]
  · intro n i s m c _ _ _ _
    simp only [readBytes_append, pollPass_readBytes, readBytes, List.nil_append,
      List.length_singleton]
    refine ⟨by omega, ?_, ?_, ?_⟩
    · intro j hj
      have h1 : j ≠ i := by omega
      have h2 : j ≠ i + 1 := by omega
      simp [bufSet, h1, h2]
    · intro j hj
      have h0 : j = 0 := by omega
      subst h0
      simp [bufSet]
    · intro j hj
      by_cases h1 : j = i + 1
      · right; simp [bufSet, h1]
      · left
        have h2 : j ≠ i := by omega
        simp [bufSet, h1, h2]
  · intro n i s m c _ _ _ _ ih
    obtain ⟨ih1, ih2, ih3, ih4⟩ := ih
    simp only [Out.pre_evs, Out.pre_buf, readBytes_append, pollPass_readBytes, readBytes,
      List.nil_append, List.length_cons, List.append_assoc, List.cons_append]
    refine ⟨by omega, ?_, ?_, ?_⟩
    · intro j hj
      have h1 : j ≠ i := by omega
      have h2 : j ≠ i + 1 := by omega
      rw [ih2 j (by omega)]
      simp [bufSet, h1, h2]
    · intro j hj
      cases j with
      | zero =>
        have := ih2 i (by omega)
        simp [this, bufSet]
      | succ k =>
        have := ih3 k (by omega)
        have he : i + (k + 1) = i + 1 + k := by omega
        rw [he]
        simpa using this
    · intro j hj
      rcases ih4 j (by omega) with h | h
      · have h2 : j ≠ i := by omega
        by_cases h1 : j = i + 1
        · right; rw [h]; simp [bufSet, h1]
        · left; rw [h]; simp [bufSet, h1, h2]
      · right; exact h
  · intro n i s m c _ _ _ ih
    obtain ⟨ih1, ih2, ih3, ih4⟩ := ih
    simp only [Out.pre_evs, Out.pre_buf, readBytes_append, pollPass_readBytes, readBytes,
      List.nil_append, List.length_cons, List.append_assoc, List.cons_append]
    refine ⟨by omega, ?_, ?_, ?_⟩
    · intro j hj
      have h1 : j ≠ i := by omega
      rw [ih2 j (by omega)]
      simp [bufSet, h1]
    · intro j hj
      cases j with
      | zero =>
        have := ih2 i (by omega)
        simp [this, bufSet]
      | succ k =>
        have := ih3 k (by omega)
        have he : i + (k + 1) = i + 1 + k := by omega
        rw [he]
        simpa using this
    · intro j hj
      rcases ih4 j (by omega) with h | h
      · have h2 : j ≠ i := by omega
        left; rw [h]; simp [bufSet, h2]
      · right; exact h

/-- On a line that delivers exactly `bytes` (none of them the terminator) and then
times out, the loop of `serial_rx` reads exactly `bytes` and returns their count. -/
theorem rxLoop_delivers {σ : Type} (L : Line σ) (t term : Nat) (ht : t ≠ 0) :
    ∀ (n i : Nat) (s : σ) (m : Buf) (bytes : List Nat) (s1 : σ),
      deliversFrom L (int_of_unsigned t) s bytes = some s1 →
      (L.waitfor s1 (int_of_unsigned t)).1 = 0 →
      bytes.length < n → (term ≠ 0 → term ∉ bytes) →
      (rxLoop L t term n i s m).ret = (i : Int) + bytes.length ∧
        readBytes (rxLoop L t term n i s m).evs = bytes := by
  apply rxLoop_ind L t term (fun n i s _ o =>
      ∀ (bytes : List Nat) (s1 : σ),
      deliversFrom L (int_of_unsigned t) s bytes = some s1 →
      (L.waitfor s1 (int_of_unsigned t)).1 = 0 →
      bytes.length < n → (term ≠ 0 → term ∉ bytes) →
      o.ret = (i : Int) + bytes.length ∧ readBytes o.evs = bytes)
  · intro i s m bytes s1 _ _ hlen _
    omega
  · intro n i s m _ hneg bytes s1 hd hto _ _
    cases bytes with
    | nil =>
      simp only [deliversFrom, Option.some.injEq] at hd
      subst hd
      omega
    | cons c cs =>
      have : ¬ 0 < (L.waitfor s (int_of_unsigned t)).1 := by omega
      simp [deliversFrom, this] at hd
  · intro n i s m _ hzero bytes s1 hd hto _ _
    cases bytes with
    | nil => simp [readBytes]
    | cons c cs =>
      have : ¬ 0 < (L.waitfor s (int_of_unsigned t)).1 := by omega
      simp [deliversFrom, this] at hd
  · intro n i s m hp hr bytes s1 hd hto _ _
    have hpos := hp ht
    cases bytes with
    | nil =>
      simp only [deliversFrom, Option.some.injEq] at hd
      subst hd
      omega
    | cons c cs =>
      have hs : (pollPass L t s).2 = (L.waitfor s (int_of_unsigned t)).2 := by
        simp [pollPass, ht]
      rw [hs] at hr
      rcases hrd : L.read (L.waitfor s (int_of_unsigned t)).2 with ⟨r, s2⟩
      rw [hrd] at hr
      simp only at hr
      subst hr
      simp [deliversFrom, hpos, hrd] at hd
  · intro n i s m hp hr bytes s1 hd hto _ _
    have hpos := hp ht
    cases bytes with
    | nil =>
      simp only [deliversFrom, Option.some.injEq] at hd
      subst hd
      omega
    | cons c cs =>
      have hs : (pollPass L t s).2 = (L.waitfor s (int_of_unsigned t)).2 := by
        simp [pollPass, ht]
      rw [hs] at hr
      rcases hrd : L.read (L.waitfor s (int_of_unsigned t)).2 with ⟨r, s2⟩
      rw [hrd] at hr
      simp only at hr
      subst hr
      simp [deliversFrom, hpos, hrd] at hd
  · intro n i s m c hp hr hz hc bytes s1 hd hto _ hnot
    have hpos := hp ht
    cases bytes with
    | nil =>
      simp only [deliversFrom, Option.some.injEq] at hd
      subst hd
      omega
    | cons d ds =>
      have hs : (pollPass L t s).2 = (L.waitfor s (int_of_unsigned t)).2 := by
        simp [pollPass, ht]
      rw [hs] at hr
      rcases hrd : L.read (L.waitfor s (int_of_unsigned t)).2 with ⟨r, s2⟩
      rw [hrd] at hr
      simp only at hr
      subst hr
      by_cases hcd : c = d
      · exfalso
        apply hnot hz
        rw [← hc, hcd]
        exact List.mem_cons_self _ _
      · simp [deliversFrom, hpos, hrd, hcd] at hd
  · intro n i s m c hp hr hz hc ih bytes s1 hd hto hlen hnot
    have hpos := hp ht
    cases bytes with
    | nil =>
      simp only [deliversFrom, Option.some.injEq] at hd
      subst hd
      omega
    | cons d ds =>
      have hs : (pollPass L t s).2 = (L.waitfor s (int_of_unsigned t)).2 := by
        simp [pollPass, ht]
      rw [hs] at hr ih ⊢
      rcases hrd : L.read (L.waitfor s (int_of_unsigned t)).2 with ⟨r, s2⟩
      rw [hrd] at hr ih
      simp only at hr ih ⊢
      subst hr
      by_cases hcd : c = d
      · subst hcd
        simp only [deliversFrom, hpos, hrd, if_true] at hd
        have hlen2 : ds.length < n := by simpa using hlen
        have hnot2 : term ≠ 0 → term ∉ ds := fun h hmem => hnot h (List.mem_cons_of_mem _ hmem)
        obtain ⟨h1, h2⟩ := ih ds s1 hd hto hlen2 hnot2
        refine ⟨?_, ?_⟩
        · simp only [Out.pre_ret, h1, List.length_cons]; push_cast; omega
        · simp [readBytes_append, pollPass_readBytes, readBytes, h2]
      · simp [deliversFrom, hpos, hrd, hcd] at hd
  · intro n i s m c hp hr hz ih bytes s1 hd hto hlen hnot
    have hpos := hp ht
    cases bytes with
    | nil =>
      simp only [deliversFrom, Option.some.injEq] at hd
      subst hd
      omega
    | cons d ds =>
      have hs : (pollPass L t s).2 = (L.waitfor s (int_of_unsigned t)).2 := by
        simp [pollPass, ht]
      rw [hs] at hr ih ⊢
      rcases hrd : L.read (L.waitfor s (int_of_unsigned t)).2 with ⟨r, s2⟩
      rw [hrd] at hr ih
      simp only at hr ih ⊢
      subst hr
      by_cases hcd : c = d
      · subst hcd
        simp only [deliversFrom, hpos, hrd, if_true] at hd
        have hlen2 : ds.length < n := by simpa using hlen
        have hnot2 : term ≠ 0 → term ∉ ds := fun h hmem => hnot h (List.mem_cons_of_mem _ hmem)
        obtain ⟨h1, h2⟩ := ih ds s1 hd hto hlen2 hnot2
        refine ⟨?_, ?_⟩
        · simp only [Out.pre_ret, h1, List.length_cons]; push_cast; omega
        · simp [readBytes_append, pollPass_readBytes, readBytes, h2]
      · simp [deliversFrom, hpos, hrd, hcd] at hd

theorem size_t_of_int_pos (n : Int) (h0 : 0 < n) (h1 : n < 2 ^ 31) :
    size_t_of_int n = n.toNat := by
  unfold size_t_of_int
  rw [Int.emod_eq_of_lt (by omega) (by omega)]

/-- C4: for `rxmaxbytes > 0`, `k < rxmaxbytes` and a non-zero timeout, when the line
delivers exactly the `k` bytes `bytes` (each poll ready, each read one byte, none
equal to a configured terminator) and the next poll times out, `serial_rx` returns
`k` without a failure, `rxbuf[0..k-1]` holds the bytes in arrival order and
`rxbuf[k..rxmaxbytes-1]` is zero. -/
theorem serial_rx_short_read_returns_count {σ : Type} (L : Line σ) (s : σ) (m : Buf)
    (rxmaxbytes : Int) (timeoutms termchr : Nat) (bytes : List Nat) (s1 : σ)
    (hmax : 0 < rxmaxbytes) (hint : rxmaxbytes < 2 ^ 31)
    (hk : (bytes.length : Int) < rxmaxbytes) (ht : timeoutms ≠ 0)
    (hterm : termchr ≠ 0 → termchr ∉ bytes)
    (hd : deliversFrom L (int_of_unsigned timeoutms) s bytes = some s1)
    (hto : (L.waitfor s1 (int_of_unsigned timeoutms)).1 = 0) :
    (serial_rx L s (some m) rxmaxbytes timeoutms termchr).ret = (bytes.length : Int) ∧
    (∀ e ∈ (serial_rx L s (some m) rxmaxbytes timeoutms termchr).evs, isFailure e = false) ∧
    ∃ b, (serial_rx L s (some m) rxmaxbytes timeoutms termchr).buf = some b ∧
      (∀ j, j < bytes.length → bytes[j]? = some (b j)) ∧
      (∀ j, bytes.length ≤ j → (j : Int) < rxmaxbytes → b j = 0) := by
  have hne : rxmaxbytes ≠ 0 := by omega
  have hsz := size_t_of_int_pos rxmaxbytes hmax hint
  rw [serial_rx_some L s m rxmaxbytes timeoutms termchr hne, hsz]
  have hlen : bytes.length < rxmaxbytes.toNat := by omega
  obtain ⟨h1, h2⟩ := rxLoop_delivers L timeoutms termchr ht rxmaxbytes.toNat 0 s
    (memset0 m rxmaxbytes.toNat) bytes s1 hd hto hlen hterm
  obtain ⟨_, _, b3, b4⟩ := rxLoop_buf L timeoutms termchr rxmaxbytes.toNat 0 s
    (memset0 m rxmaxbytes.toNat)
  obtain ⟨r1, _, _⟩ := rxLoop_ret L timeoutms termchr rxmaxbytes.toNat 0 s
    (memset0 m rxmaxbytes.toNat)
  rw [h2] at b3 b4
  refine ⟨by simpa using h1, ?_, _, rfl, ?_, ?_⟩
  · intro e he
    rcases List.mem_cons.mp he with h | h
    · subst h; rfl
    · by_contra hf
      have hf2 : isFailure e = true := by simpa using hf
      have := r1.mpr ⟨e, h, hf2⟩
      rw [h1] at this
      omega
  · intro j hj
    simpa using b3 j hj
  · intro j hj hjn
    have hjn2 : j < rxmaxbytes.toNat := by omega
    rcases b4 j (by omega) with h | h
    · rw [h]; simp [memset0, hjn2]
    · exact h

/-- A scripted line that delivers two bytes and then times out: the call returns `2`. -/
theorem serial_rx_short_read_returns_count_witness :
    (serial_rx scriptLine ⟨[1, 1, 0], [RdRes.byte 65, RdRes.byte 66], []⟩ (some (fun _ => 170))
      4 50 13).ret = 2 :=
  (serial_rx_short_read_returns_count scriptLine ⟨[1, 1, 0], [RdRes.byte 65, RdRes.byte 66], []⟩
    (fun _ => 170) 4 50 13 [65, 66] ⟨[0], [], []⟩ (by decide) (by decide) (by decide) (by decide)
    (by decide) (by decide) (by decide)).1

/-- What `serial_rxflush` can return and do: its value is `-1` or the untouched
initial `flushed`, and it performs only polls and reads. -/
theorem rxflushLoop_spec {σ : Type} (L : Line σ) (t : Int) :
    ∀ (fuel : Nat) (flushed : Int) (s : σ) (f : Out σ Unit),
      rxflushLoop L t fuel flushed s = some f →
      (f.ret = -1 ∨ f.ret = flushed) ∧
        ∀ e ∈ f.evs, isWrite e = false ∧ isBufWrite e = false := by
  intro fuel
  induction fuel with
  | zero => intro flushed s f h; simp [rxflushLoop] at h
  | succ n ih =>
    intro flushed s f h
    simp only [rxflushLoop, serial_rxready] at h
    split_ifs at h with h1 h2 h3
    · simp only [Option.some.injEq] at h
      subst h
      simp [isWrite, isBufWrite]
    · rcases hrec : rxflushLoop L t n flushed (L.read (L.waitfor s t).2).2 with _ | g
      · simp [hrec] at h
      · simp only [hrec, Option.map_some', Option.some.injEq] at h
        subst h
        obtain ⟨g1, g2⟩ := ih flushed _ g hrec
        refine ⟨by simpa using g1, ?_⟩
        intro e he
        simp only [Out.pre_evs, List.mem_append, List.mem_cons, List.mem_singleton,
          List.not_mem_nil, or_false] at he
        rcases he with (he | he) | he
        · subst he; simp [isWrite, isBufWrite]
        · subst he; simp [isWrite, isBufWrite]
        · exact g2 e he
    · simp only [Option.some.injEq] at h
      subst h
      simp [isWrite, isBufWrite, h3]
    · simp only [Option.some.injEq] at h
      subst h
      simp [isWrite, isBufWrite, h3]

theorem queue_pollPass (ready : Int) (peer : List Nat → List Nat)
    (accepted : List Nat → Int → Int) (eofOnEmpty : Bool) (t : Nat) (q : List Nat) :
    (pollPass (queueLine ready peer accepted eofOnEmpty) t q).2 = q := by
  by_cases ht : t = 0 <;> simp [pollPass, ht, queueLine]

theorem queue_read_byte (ready : Int) (peer : List Nat → List Nat)
    (accepted : List Nat → Int → Int) (eofOnEmpty : Bool) (q : List Nat) (c : Nat)
    (h : ((queueLine ready peer accepted eofOnEmpty).read q).1 = RdRes.byte c) :
    q = c :: ((queueLine ready peer accepted eofOnEmpty).read q).2 := by
  cases q with
  | nil => cases eofOnEmpty <;> simp [queueLine] at h
  | cons d ds =>
    simp only [queueLine, RdRes.byte.injEq] at h
    simp [queueLine, h]

/-- On the queue line the loop of `serial_rx` reads a prefix of the queue. -/
theorem rxLoop_queue_reads (ready : Int) (peer : List Nat → List Nat)
    (accepted : List Nat → Int → Int) (eofOnEmpty : Bool) (t term : Nat) :
    ∀ (n i : Nat) (q : List Nat) (m : Buf),
      readBytes (rxLoop (queueLine ready peer accepted eofOnEmpty) t term n i q m).evs <+: q := by
  apply rxLoop_ind (queueLine ready peer accepted eofOnEmpty) t term (fun _ _ q _ o => readBytes o.evs <+: q)
  · intro i s m; simp [readBytes]
  · intro n i s m _ _; simp [readBytes]
  · intro n i s m _ _; simp [readBytes]
  · intro n i s m _ _; simp [readBytes_append, pollPass_readBytes, readBytes]
  · intro n i s m _ _; simp [readBytes_append, pollPass_readBytes, readBytes]
  · intro n i s m c _ hr _ _
    rw [queue_pollPass] at hr
    have hq := queue_read_byte ready peer accepted eofOnEmpty s c hr
    simp only [readBytes_append, pollPass_readBytes, readBytes, List.nil_append]
    rw [hq]
    simp
  · intro n i s m c _ hr _ _ ih
    rw [queue_pollPass] at hr ih ⊢
    have hq := queue_read_byte ready peer accepted eofOnEmpty s c hr
    simp only [Out.pre_evs, readBytes_append, pollPass_readBytes, readBytes, List.nil_append,
      List.cons_append]
    rw [hq]
    exact (List.cons_prefix_cons).mpr ⟨rfl, by simpa using ih⟩
  · intro n i s m c _ hr _ ih
    rw [queue_pollPass] at hr ih ⊢
    have hq := queue_read_byte ready peer accepted eofOnEmpty s c hr
    simp only [Out.pre_evs, readBytes_append, pollPass_readBytes, readBytes, List.nil_append,
      List.cons_append]
    rw [hq]
    exact (List.cons_prefix_cons).mpr ⟨rfl, by simpa using ih⟩

theorem pollPass_no_write {σ : Type} (L : Line σ) (t : Nat) (s : σ) :
    ∀ e ∈ (pollPass L t s).1, isWrite e = false := by
  by_cases ht : t = 0 <;> simp [pollPass, ht, isWrite]

/-- The loop of `serial_rx` never writes to the line. -/
theorem rxLoop_no_write {σ : Type} (L : Line σ) (t term : Nat) :
    ∀ (n i : Nat) (s : σ) (m : Buf), ∀ e ∈ (rxLoop L t term n i s m).evs, isWrite e = false := by
  apply rxLoop_ind L t term (fun _ _ _ _ o => ∀ e ∈ o.evs, isWrite e = false)
  · intro i s m; simp
  · intro n i s m _ _; simp [isWrite]
  · intro n i s m _ _; simp [isWrite]
  · intro n i s m _ _ e he
    rcases List.mem_append.mp he with h | h
    · exact pollPass_no_write L t s e h
    · simp at h; subst h; rfl
  · intro n i s m _ _ e he
    rcases List.mem_append.mp he with h | h
    · exact pollPass_no_write L t s e h
    · simp at h; subst h; rfl
  · intro n i s m c _ _ _ _ e he
    rcases List.mem_append.mp he with h | h
    · exact pollPass_no_write L t s e h
    · simp at h; rcases h with h | h | h <;> subst h <;> rfl
  · intro n i s m c _ _ _ _ ih e he
    simp only [Out.pre_evs] at he
    rcases List.mem_append.mp he with h | h
    · rcases List.mem_append.mp h with h | h
      · exact pollPass_no_write L t s e h
      · simp at h; rcases h with h | h | h <;> subst h <;> rfl
    · exact ih e h
  · intro n i s m c _ _ _ ih e he
    simp only [Out.pre_evs] at he
    rcases List.mem_append.mp he with h | h
    · rcases List.mem_append.mp h with h | h
      · exact pollPass_no_write L t s e h
      · simp at h; rcases h with h | h <;> subst h <;> rfl
    · exact ih e h

theorem queue_waitfor_nil (ready : Int) (peer : List Nat → List Nat)
    (accepted : List Nat → Int → Int) (eofOnEmpty : Bool) (t : Int) :
    (queueLine ready peer accepted eofOnEmpty).waitfor [] t = (0, []) := rfl

theorem queue_waitfor_cons (ready : Int) (peer : List Nat → List Nat)
    (accepted : List Nat → Int → Int) (eofOnEmpty : Bool) (t : Int)
    (c : Nat) (cs : List Nat) :
    (queueLine ready peer accepted eofOnEmpty).waitfor (c :: cs) t = (ready, c :: cs) := rfl

theorem queue_read_cons (ready : Int) (peer : List Nat → List Nat)
    (accepted : List Nat → Int → Int) (eofOnEmpty : Bool) (c : Nat)
    (cs : List Nat) : (queueLine ready peer accepted eofOnEmpty).read (c :: cs) = (RdRes.byte c, cs) := rfl

theorem queue_write (ready : Int) (peer : List Nat → List Nat)
    (accepted : List Nat → Int → Int) (eofOnEmpty : Bool) (q txbuf : List Nat)
    (txbytes : Int) :
    (queueLine ready peer accepted eofOnEmpty).write q txbuf txbytes =
      (accepted txbuf txbytes, q ++ peer (txbuf.take txbytes.toNat)) := rfl

/-- On the queue line whose poll reports ready as `1`, given more fuel than queued
bytes, `serial_rxflush` reads the whole queue and returns. -/
theorem rxflushLoop_queue (peer : List Nat → List Nat)
    (accepted : List Nat → Int → Int) (eofOnEmpty : Bool) (t : Int) :
    ∀ (q : List Nat) (fuel : Nat) (flushed : Int), q.length < fuel →
      ∃ f, rxflushLoop (queueLine 1 peer accepted eofOnEmpty) t fuel flushed q = some f ∧
        f.ret = flushed ∧ f.line = [] ∧ readBytes f.evs = q := by
  intro q
  induction q with
  | nil =>
    intro fuel flushed h
    cases fuel with
    | zero => simp at h
    | succ n =>
      refine ⟨⟨flushed, [], (), [Ev.poll t 0]⟩, ?_, rfl, rfl, rfl⟩
      simp [rxflushLoop, serial_rxready, queue_waitfor_nil]
  | cons c cs ih =>
    intro fuel flushed h
    cases fuel with
    | zero => simp at h
    | succ n =>
      obtain ⟨g, hg, g1, g2, g3⟩ := ih n flushed (by simpa using h)
      refine ⟨g.pre [Ev.poll t 1, Ev.read (RdRes.byte c)], ?_, ?_, ?_, ?_⟩
      · simp [rxflushLoop, serial_rxready, queue_waitfor_cons, queue_read_cons, RdRes.ret, hg]
      · simpa using g1
      · simpa using g2
      · simp [readBytes, g3]

/-- On the queue line whose poll reports ready with a value other than `1`, the
`while` test `== 1` of `serial_rxflush` fails at once: one poll, no read, and the
queue is left as it was. -/
theorem rxflushLoop_queue_not_one (ready : Int) (peer : List Nat → List Nat)
    (accepted : List Nat → Int → Int) (eofOnEmpty : Bool) (t : Int) (hr : ready ≠ 1)
    (c : Nat) (cs : List Nat) (fuel : Nat) (flushed : Int) :
    rxflushLoop (queueLine ready peer accepted eofOnEmpty) t (fuel + 1) flushed (c :: cs) =
      some ⟨if ready = -1 then ready else flushed, c :: cs, (), [Ev.poll t ready]⟩ := by
  simp [rxflushLoop, serial_rxready, queue_waitfor_cons, hr]

/-- On the queue line whose poll reports ready as `1` and whose write is accepted in
full, `serial_io` with `rxmaxbytes > 0` and a non-null buffer returns; all reads
before its `write` deliver exactly the stale bytes, the reads after it deliver a
prefix of the peer's response, and `rxbuf` holds that prefix followed by zeros. -/
theorem serial_io_flushes_when_ready_is_one (peer : List Nat → List Nat)
    (accepted : List Nat → Int → Int) (eofOnEmpty : Bool) (stale txbuf : List Nat) (m : Buf) (txbytes rxmaxbytes : Int)
    (timeoutms termchr fuel : Nat) (hmax : 0 < rxmaxbytes) (hint : rxmaxbytes < 2 ^ 31)
    (hfuel : stale.length < fuel) (hacc : accepted txbuf txbytes = txbytes) :
    ∃ o pre post b,
      serial_io (queueLine 1 peer accepted eofOnEmpty) fuel stale txbuf (some m) txbytes rxmaxbytes
        timeoutms termchr = some o ∧
      o.evs = pre ++ Ev.write txbuf txbytes txbytes :: post ∧
      readBytes pre = stale ∧
      (∀ e ∈ pre, isWrite e = false) ∧ (∀ e ∈ post, isWrite e = false) ∧
      readBytes post <+: peer (txbuf.take txbytes.toNat) ∧
      o.buf = some b ∧
      (∀ j, j < (readBytes post).length → (readBytes post)[j]? = some (b j)) ∧
      (∀ j, (readBytes post).length ≤ j → (j : Int) < rxmaxbytes → b j = 0) := by
  have hne : rxmaxbytes ≠ 0 := by omega
  have hsz := size_t_of_int_pos rxmaxbytes hmax hint
  obtain ⟨f, hf, f1, f2, f3⟩ := rxflushLoop_queue peer accepted eofOnEmpty 10 stale fuel 0 hfuel
  have fw := (rxflushLoop_spec (queueLine 1 peer accepted eofOnEmpty) 10 fuel 0 stale f hf).2
  have hf1 : ¬ f.ret = -1 := by rw [f1]; decide
  obtain ⟨b1, _, b3, b4⟩ := rxLoop_buf (queueLine 1 peer accepted eofOnEmpty) timeoutms termchr
    rxmaxbytes.toNat 0 (peer (txbuf.take txbytes.toNat)) (memset0 m rxmaxbytes.toNat)
  have hpre := rxLoop_queue_reads 1 peer accepted eofOnEmpty timeoutms termchr
    rxmaxbytes.toNat 0 (peer (txbuf.take txbytes.toNat)) (memset0 m rxmaxbytes.toNat)
  have hnw := rxLoop_no_write (queueLine 1 peer accepted eofOnEmpty) timeoutms termchr
    rxmaxbytes.toNat 0 (peer (txbuf.take txbytes.toNat)) (memset0 m rxmaxbytes.toNat)
  have hio : serial_io (queueLine 1 peer accepted eofOnEmpty) fuel stale txbuf (some m) txbytes rxmaxbytes
      timeoutms termchr =
      some ((serial_rx (queueLine 1 peer accepted eofOnEmpty) (peer (txbuf.take txbytes.toNat)) (some m)
        rxmaxbytes timeoutms termchr).pre (f.evs ++ [Ev.write txbuf txbytes txbytes])) := by
    simp [serial_io, serial_rxflush, hf, hne, hf1, ioWriteRx, queue_write, f2, hacc]
  rw [serial_rx_some _ _ _ _ _ _ hne, hsz] at hio
  refine ⟨_, f.evs, Ev.memset rxmaxbytes.toNat ::
      (rxLoop (queueLine 1 peer accepted eofOnEmpty) timeoutms termchr rxmaxbytes.toNat 0
        (peer (txbuf.take txbytes.toNat)) (memset0 m rxmaxbytes.toNat)).evs,
    (rxLoop (queueLine 1 peer accepted eofOnEmpty) timeoutms termchr rxmaxbytes.toNat 0
        (peer (txbuf.take txbytes.toNat)) (memset0 m rxmaxbytes.toNat)).buf,
    hio, ?_, f3, fun e he => (fw e he).1, ?_, ?_, ?_, ?_, ?_⟩
  · simp [Out.pre]
  · intro e he
    rcases List.mem_cons.mp he with h | h
    · subst h; rfl
    · exact hnw e h
  · simpa [readBytes] using hpre
  · simp [Out.pre]
  · intro j hj
    simp only [readBytes] at hj ⊢
    simpa using b3 j hj
  · intro j hj hjn
    simp only [readBytes] at hj
    have hjn2 : j < rxmaxbytes.toNat := by omega
    rcases b4 j (by omega) with h | h
    · rw [h]; simp [memset0, hjn2]
    · exact h

/-- A scripted run whose second poll reports an error: a failure event is performed. -/
theorem serial_rx_fails_iff_poll_or_read_fails_witness :
    ∃ e ∈ (serial_rx scriptLine ⟨[1, -1], [RdRes.byte 65], []⟩ (some (fun _ => 170))
      4 50 0).evs, isFailure e = true :=
  (serial_rx_fails_iff_poll_or_read_fails scriptLine ⟨[1, -1], [RdRes.byte 65], []⟩
    (fun _ => 170) 4 50 0 (by decide)).1.mp (by decide)

/-- A scripted run without failures and `rxmaxbytes = 4`: the count is in `[0, 4]`. -/
theorem serial_rx_count_in_range_witness :
    0 ≤ (serial_rx scriptLine ⟨[1, 1, 0], [RdRes.byte 65, RdRes.byte 66], []⟩
        (some (fun _ => 170)) 4 50 13).ret ∧
      (serial_rx scriptLine ⟨[1, 1, 0], [RdRes.byte 65, RdRes.byte 66], []⟩
        (some (fun _ => 170)) 4 50 13).ret ≤ 4 :=
  serial_rx_count_in_range scriptLine ⟨[1, 1, 0], [RdRes.byte 65, RdRes.byte 66], []⟩
    (fun _ => 170) 4 50 13 (by decide) (by decide)

/-- C1: `serial_io` with `txbuf = "PING\r"`, `termchr = '\r'` and `rxmaxbytes = 16`
against an echoing peer leaves `"PING\r\0"` in `rxbuf` and returns `4`, the index of
the terminator, not `5`: the `break` on the terminator skips the `i++` of the loop,
so the terminator byte is stored but not counted. -/
theorem serial_io_ping_echo_returns_four :
    (serial_io (queueLine 1 id acceptAll true) 1 [] [80, 73, 78, 71, 13] (some (fun _ => 170))
        5 16 100 13).map (fun o => (o.ret, o.buf.map (fun b => (List.range 6).map b))) =
      some (4, some [80, 73, 78, 71, 13, 0]) := by
  decide

/-- C2: with `rxmaxbytes = 1` and the terminator `'\r'` configured, one byte read makes
`serial_rx` write `rxbuf[1]`, an index that is not below `rxmaxbytes`: the byte
there changes from `170` to `0`. -/
theorem serial_rx_writes_past_rxmaxbytes :
    (∃ e ∈ (serial_rx scriptLine ⟨[], [RdRes.byte 65], []⟩ (some (fun _ => 170)) 1 0 13).evs,
        writesIdx 1 e = true) ∧
      (serial_rx scriptLine ⟨[], [RdRes.byte 65], []⟩ (some (fun _ => 170)) 1 0 13).buf.map
        (fun b => b 1) = some 0 := by
  decide

/-- C6: after two ready polls, each followed by a successful read, and a poll that
reports not ready, `serial_rxflush` returns `0`, not `2`: `flushed++` stands after
the `break` and is never executed. -/
theorem serial_rxflush_two_bytes_returns_zero :
    (serial_rxflush scriptLine 3 ⟨[1, 1, 0], [RdRes.byte 65, RdRes.byte 66], []⟩ 10).map
        (fun o => (o.ret, readBytes o.evs)) = some (0, [65, 66]) := by
  decide

/-- C7: on the queue line whose poll reports ready with the value `2`, holding the
stale bytes `1, 2`, `serial_io` with `txbuf = "PING\r"` against an echoing peer reads
no byte before its `write` (the flush performs one poll and stops, its test being
`== 1`), and `serial_rx`, which takes any positive poll result as ready, stores the
stale bytes in front of the response: `rxbuf` is `1, 2, "PING\r\0"` and `6` is
returned. -/
theorem serial_io_stale_bytes_reach_response :
    (serial_io (queueLine 2 id acceptAll true) 3 [1, 2] [80, 73, 78, 71, 13]
        (some (fun _ => 170)) 5 16 100 13).map
        (fun o => (o.ret, o.buf.map (fun b => (List.range 8).map b), o.evs.take 2)) =
      some (6, some [1, 2, 80, 73, 78, 71, 13, 0],
        [Ev.poll 10 2, Ev.write [80, 73, 78, 71, 13] 5 5]) := by
  decide

/-- C9: with `rxmaxbytes = -1` and a non-null buffer `serial_rx` returns `0` without a
poll or a read, but it is not a no-op: the guard `!rxmaxbytes` lets the negative
count through to `memset`, which takes it as `2^64 - 1` and writes `rxbuf`. -/
theorem serial_rx_negative_rxmaxbytes_writes_rxbuf :
    (serial_rx scriptLine ⟨[1], [RdRes.byte 65], []⟩ (some (fun _ => 170)) (-1) 50 13).ret = 0 ∧
      (serial_rx scriptLine ⟨[1], [RdRes.byte 65], []⟩ (some (fun _ => 170)) (-1) 50 13).evs =
        [Ev.memset 18446744073709551615] ∧
      (serial_rx scriptLine ⟨[1], [RdRes.byte 65], []⟩ (some (fun _ => 170)) (-1) 50
        13).buf.map (fun b => b 0) = some 0 := by
  decide

/-- C10: in the default build (`SOLARIS` not defined) `serial_open` with `stop2 = 1` on
a line whose attributes from `tcgetattr` have `CSTOPB` clear succeeds and commits
attributes with `CSTOPB` still clear: only the `SOLARIS` branch looks at `stop2`. -/
theorem serial_open_stop2_not_applied :
    (serial_open false ⟨3, some ⟨0, 0, 0, 0, 0, 0⟩, fun _ => true⟩ B9600 1).1 = 3 ∧
      (serial_open false ⟨3, some ⟨0, 0, 0, 0, 0, 0⟩, fun _ => true⟩ B9600 1).2.map
        (fun t => hasFlag t.c_cflag CSTOPB) = some false := by
  decide

/-! ## Further facts about the code -/

/-- In the default build the result of `serial_open` does not depend on `stop2`. -/
theorem serial_open_default_ignores_stop2 (tty : Tty) (speed : Nat) (stop2 : Int) :
    serial_open false tty speed stop2 = serial_open false tty speed 0 := rfl

/-- `serial_rxflush` returns `-1` or `0`, whatever the line does. -/
theorem serial_rxflush_ret {σ : Type} (L : Line σ) (fuel : Nat) (s : σ) (t : Int)
    (f : Out σ Unit) (h : serial_rxflush L fuel s t = some f) : f.ret = -1 ∨ f.ret = 0 :=
  (rxflushLoop_spec L t fuel 0 s f h).1

/-- With `rxmaxbytes = 0` or `rxbuf = NULL`, `serial_rx` returns `0` and does nothing. -/
theorem serial_rx_degenerate {σ : Type} (L : Line σ) (s : σ) (rxbuf : Option Buf)
    (rxmaxbytes : Int) (timeoutms termchr : Nat) (h : rxmaxbytes = 0 ∨ rxbuf = none) :
    (serial_rx L s rxbuf rxmaxbytes timeoutms termchr).ret = 0 ∧
      (serial_rx L s rxbuf rxmaxbytes timeoutms termchr).evs = [] ∧
      (serial_rx L s rxbuf rxmaxbytes timeoutms termchr).buf = rxbuf ∧
      (serial_rx L s rxbuf rxmaxbytes timeoutms termchr).line = s := by
  cases rxbuf with
  | none => simp [serial_rx]
  | some m =>
    rcases h with h | h
    · simp [serial_rx, h]
    · simp at h

/-- With a negative `rxmaxbytes`, `serial_rx` returns `0` after the `memset` alone. -/
theorem serial_rx_negative {σ : Type} (L : Line σ) (s : σ) (m : Buf)
    (rxmaxbytes : Int) (timeoutms termchr : Nat) (h : rxmaxbytes < 0) :
    (serial_rx L s (some m) rxmaxbytes timeoutms termchr).ret = 0 ∧
      (serial_rx L s (some m) rxmaxbytes timeoutms termchr).evs =
        [Ev.memset (size_t_of_int rxmaxbytes)] := by
  have hne : rxmaxbytes ≠ 0 := by omega
  have h0 : rxmaxbytes.toNat = 0 := Int.toNat_eq_zero.mpr (by omega)
  rw [serial_rx_some L s m rxmaxbytes timeoutms termchr hne, h0]
  simp [rxLoop]

theorem pollPass_no_bufwrite {σ : Type} (L : Line σ) (t : Nat) (s : σ) (j : Nat) :
    ∀ e ∈ (pollPass L t s).1, writesIdx j e = false := by
  by_cases ht : t = 0 <;> simp [pollPass, ht, writesIdx]

/-- The loop of `serial_rx` started at index `i` with `n` passes left writes no index
below `i` and none above `i + n`; without a terminator none at or above `i + n`. -/
theorem rxLoop_writes_bound {σ : Type} (L : Line σ) (t term : Nat) :
    ∀ (n i : Nat) (s : σ) (m : Buf), ∀ e ∈ (rxLoop L t term n i s m).evs, ∀ j,
      writesIdx j e = true → i ≤ j ∧ j ≤ i + n ∧ (term = 0 → j < i + n) := by
  apply rxLoop_ind L t term (fun n i _ _ o => ∀ e ∈ o.evs, ∀ j,
      writesIdx j e = true → i ≤ j ∧ j ≤ i + n ∧ (term = 0 → j < i + n))
  · intro i s m; simp
  · intro n i s m _ _; simp [writesIdx]
  · intro n i s m _ _; simp [writesIdx]
  · intro n i s m _ _ e he j hj
    rcases List.mem_append.mp he with h | h
    · rw [pollPass_no_bufwrite L t s j e h] at hj; exact absurd hj (by decide)
    · simp at h; subst h; simp [writesIdx] at hj
  · intro n i s m _ _ e he j hj
    rcases List.mem_append.mp he with h | h
    · rw [pollPass_no_bufwrite L t s j e h] at hj; exact absurd hj (by decide)
    · simp at h; subst h; simp [writesIdx] at hj
  · intro n i s m c _ _ hz _ e he j hj
    rcases List.mem_append.mp he with h | h
    · rw [pollPass_no_bufwrite L t s j e h] at hj; exact absurd hj (by decide)
    · simp at h
      rcases h with h | h | h <;> subst h <;> simp [writesIdx] at hj <;> omega
  · intro n i s m c _ _ hz _ ih e he j hj
    simp only [Out.pre_evs] at he
    rcases List.mem_append.mp he with h | h
    · rcases List.mem_append.mp h with h | h
      · rw [pollPass_no_bufwrite L t s j e h] at hj; exact absurd hj (by decide)
      · simp at h
        rcases h with h | h | h <;> subst h <;> simp [writesIdx] at hj <;> omega
    · have := ih e h j hj
      omega
  · intro n i s m c _ _ hz ih e he j hj
    simp only [Out.pre_evs] at he
    rcases List.mem_append.mp he with h | h
    · rcases List.mem_append.mp h with h | h
      · rw [pollPass_no_bufwrite L t s j e h] at hj; exact absurd hj (by decide)
      · simp at h
        rcases h with h | h
        · subst h; simp [writesIdx] at hj
        · subst h; simp [writesIdx] at hj; omega
    · have := ih e h j hj
      omega

/-- Every index `serial_rx` writes is at most `rxmaxbytes`, and below `rxmaxbytes`
when no terminator is configured. -/
theorem serial_rx_writes_bound {σ : Type} (L : Line σ) (s : σ) (m : Buf) (rxmaxbytes : Int)
    (timeoutms termchr : Nat) (hmax : 0 < rxmaxbytes) (hint : rxmaxbytes < 2 ^ 31) :
    ∀ e ∈ (serial_rx L s (some m) rxmaxbytes timeoutms termchr).evs, ∀ j,
      writesIdx j e = true → (j : Int) ≤ rxmaxbytes ∧ (termchr = 0 → (j : Int) < rxmaxbytes) := by
  have hne : rxmaxbytes ≠ 0 := by omega
  have hsz := size_t_of_int_pos rxmaxbytes hmax hint
  rw [serial_rx_some L s m rxmaxbytes timeoutms termchr hne, hsz]
  intro e he j hj
  rcases List.mem_cons.mp he with h | h
  · subst h
    simp [writesIdx] at hj
    omega
  · have := rxLoop_writes_bound L timeoutms termchr rxmaxbytes.toNat 0 s _ e h j hj
    omega

/-- When the line delivers `bytes` (none of them the terminator) and then the
terminator, the loop of `serial_rx` started at index `i` stores them all, writes the
zero end marker after the terminator and returns `i + bytes.length`, the index of
the terminator. -/
theorem rxLoop_terminator {σ : Type} (L : Line σ) (t term : Nat) (ht : t ≠ 0) (hz : term ≠ 0) :
    ∀ (n i : Nat) (s : σ) (m : Buf) (bytes : List Nat) (s1 : σ),
      deliversFrom L (int_of_unsigned t) s bytes = some s1 →
      0 < (L.waitfor s1 (int_of_unsigned t)).1 →
      (L.read (L.waitfor s1 (int_of_unsigned t)).2).1 = RdRes.byte term →
      bytes.length < n → term ∉ bytes →
      (rxLoop L t term n i s m).ret = (i : Int) + bytes.length ∧
        readBytes (rxLoop L t term n i s m).evs = bytes ++ [term] ∧
        (rxLoop L t term n i s m).buf (i + bytes.length + 1) = 0 := by
  apply rxLoop_ind L t term (fun n i s _ o =>
      ∀ (bytes : List Nat) (s1 : σ),
      deliversFrom L (int_of_unsigned t) s bytes = some s1 →
      0 < (L.waitfor s1 (int_of_unsigned t)).1 →
      (L.read (L.waitfor s1 (int_of_unsigned t)).2).1 = RdRes.byte term →
      bytes.length < n → term ∉ bytes →
      o.ret = (i : Int) + bytes.length ∧ readBytes o.evs = bytes ++ [term] ∧
        o.buf (i + bytes.length + 1) = 0)
  · intro i s m bytes s1 _ _ _ hlen _
    omega
  · intro n i s m _ hneg bytes s1 hd hrdy _ _ _
    cases bytes with
    | nil =>
      simp only [deliversFrom, Option.some.injEq] at hd
      subst hd
      omega
    | cons c cs =>
      have : ¬ 0 < (L.waitfor s (int_of_unsigned t)).1 := by omega
      simp [deliversFrom, this] at hd
  · intro n i s m _ hzero bytes s1 hd hrdy _ _ _
    cases bytes with
    | nil =>
      simp only [deliversFrom, Option.some.injEq] at hd
      subst hd
      omega
    | cons c cs =>
      have : ¬ 0 < (L.waitfor s (int_of_unsigned t)).1 := by omega
      simp [deliversFrom, this] at hd
  · intro n i s m hp hr bytes s1 hd hrdy hrt _ _
    have hpos := hp ht
    have hs : (pollPass L t s).2 = (L.waitfor s (int_of_unsigned t)).2 := by
      simp [pollPass, ht]
    rw [hs] at hr
    cases bytes with
    | nil =>
      simp only [deliversFrom, Option.some.injEq] at hd
      subst hd
      rw [hr] at hrt
      exact absurd hrt (by simp)
    | cons c cs =>
      rcases hrd : L.read (L.waitfor s (int_of_unsigned t)).2 with ⟨r, s2⟩
      rw [hrd] at hr
      simp only at hr
      subst hr
      simp [deliversFrom, hpos, hrd] at hd
  · intro n i s m hp hr bytes s1 hd hrdy hrt _ _
    have hpos := hp ht
    have hs : (pollPass L t s).2 = (L.waitfor s (int_of_unsigned t)).2 := by
      simp [pollPass, ht]
    rw [hs] at hr
    cases bytes with
    | nil =>
      simp only [deliversFrom, Option.some.injEq] at hd
      subst hd
      rw [hr] at hrt
      exact absurd hrt (by simp)
    | cons c cs =>
      rcases hrd : L.read (L.waitfor s (int_of_unsigned t)).2 with ⟨r, s2⟩
      rw [hrd] at hr
      simp only at hr
      subst hr
      simp [deliversFrom, hpos, hrd] at hd
  · intro n i s m c hp hr _ hc bytes s1 hd hrdy hrt _ hnot
    have hpos := hp ht
    have hs : (pollPass L t s).2 = (L.waitfor s (int_of_unsigned t)).2 := by
      simp [pollPass, ht]
    rw [hs] at hr
    cases bytes with
    | nil =>
      subst hc
      refine ⟨by simp, ?_, ?_⟩
      · simp [readBytes_append, pollPass_readBytes, readBytes]
      · simp [bufSet]
    | cons d ds =>
      rcases hrd : L.read (L.waitfor s (int_of_unsigned t)).2 with ⟨r, s2⟩
      rw [hrd] at hr
      simp only at hr
      subst hr
      by_cases hcd : c = d
      · exfalso
        apply hnot
        rw [← hc, hcd]
        exact List.mem_cons_self _ _
      · simp [deliversFrom, hpos, hrd, hcd] at hd
  · intro n i s m c hp hr _ hc ih bytes s1 hd hrdy hrt hlen hnot
    have hpos := hp ht
    have hs : (pollPass L t s).2 = (L.waitfor s (int_of_unsigned t)).2 := by
      simp [pollPass, ht]
    rw [hs] at hr ih ⊢
    cases bytes with
    | nil =>
      simp only [deliversFrom, Option.some.injEq] at hd
      subst hd
      rw [hr] at hrt
      simp only [RdRes.byte.injEq] at hrt
      exact absurd hrt hc
    | cons d ds =>
      rcases hrd : L.read (L.waitfor s (int_of_unsigned t)).2 with ⟨r, s2⟩
      rw [hrd] at hr ih
      simp only at hr ih ⊢
      subst hr
      by_cases hcd : c = d
      · subst hcd
        simp only [deliversFrom, hpos, hrd, if_true] at hd
        have hlen2 : ds.length < n := by simpa using hlen
        have hnot2 : term ∉ ds := fun hmem => hnot (List.mem_cons_of_mem _ hmem)
        obtain ⟨h1, h2, h3⟩ := ih ds s1 hd hrdy hrt hlen2 hnot2
        refine ⟨?_, ?_, ?_⟩
        · simp only [Out.pre_ret, h1, List.length_cons]; push_cast; omega
        · simp [readBytes_append, pollPass_readBytes, readBytes, h2]
        · have he : i + (c :: ds).length + 1 = i + 1 + ds.length + 1 := by
            simp only [List.length_cons]; omega
          rw [he]
          simpa using h3
      · simp [deliversFrom, hpos, hrd, hcd] at hd
  · intro n i s m c _ _ h0 _ bytes s1 _ _ _ _ _
    exact absurd h0 hz

/-- When the first terminator byte arrives at position `bytes.length` (earlier polls
ready, earlier reads one byte each), `serial_rx` returns `bytes.length`, the
position of the terminator, and the buffer byte after the terminator is zero. -/
theorem serial_rx_terminator_returns_index {σ : Type} (L : Line σ) (s : σ) (m : Buf)
    (rxmaxbytes : Int) (timeoutms termchr : Nat) (bytes : List Nat) (s1 : σ)
    (hk : (bytes.length : Int) < rxmaxbytes) (ht : timeoutms ≠ 0) (hz : termchr ≠ 0)
    (hnot : termchr ∉ bytes)
    (hd : deliversFrom L (int_of_unsigned timeoutms) s bytes = some s1)
    (hrdy : 0 < (L.waitfor s1 (int_of_unsigned timeoutms)).1)
    (hrt : (L.read (L.waitfor s1 (int_of_unsigned timeoutms)).2).1 = RdRes.byte termchr) :
    (serial_rx L s (some m) rxmaxbytes timeoutms termchr).ret = (bytes.length : Int) ∧
      ∃ b, (serial_rx L s (some m) rxmaxbytes timeoutms termchr).buf = some b ∧
        b (bytes.length + 1) = 0 := by
  have hne : rxmaxbytes ≠ 0 := by omega
  rw [serial_rx_some L s m rxmaxbytes timeoutms termchr hne]
  have hlen : bytes.length < rxmaxbytes.toNat := by omega
  obtain ⟨h1, _, h3⟩ := rxLoop_terminator L timeoutms termchr ht hz rxmaxbytes.toNat 0 s
    (memset0 m (size_t_of_int rxmaxbytes)) bytes s1 hd hrdy hrt hlen hnot
  exact ⟨by simpa using h1, _, rfl, by simpa using h3⟩

theorem hasFlag_cstopb_of_testBit (f : Nat) (h : f.testBit 6 = true) :
    hasFlag f CSTOPB = true := by
  have h2 : (f &&& CSTOPB).testBit 6 = true := by
    rw [Nat.testBit_and, h]
    decide
  unfold hasFlag
  simp only [bne_iff_ne, ne_eq]
  intro h0
  rw [h0] at h2
  simp at h2

theorem testBit_cstopb_setspeed (x speed : Nat) (h : x.testBit 6 = true) :
    (clearBits x CBAUD ||| speed).testBit 6 = true := by
  have hm : (0xFFFFFFFF ^^^ (CBAUD % 2 ^ 32)).testBit 6 = true := by decide
  unfold clearBits
  rw [Nat.testBit_or, Nat.testBit_and, h, hm]
  rfl

theorem testBit_cstopb_cfsetispeed (t : Termios) (speed : Nat) (h : t.c_cflag.testBit 6 = true) :
    (cfsetispeed t speed).c_cflag.testBit 6 = true := by
  unfold cfsetispeed
  split_ifs
  · exact h
  · exact testBit_cstopb_setspeed _ _ h
  · exact h

theorem testBit_cstopb_cfsetospeed (t : Termios) (speed : Nat) (h : t.c_cflag.testBit 6 = true) :
    (cfsetospeed t speed).c_cflag.testBit 6 = true := by
  unfold cfsetospeed
  split_ifs
  · exact testBit_cstopb_setspeed _ _ h
  · exact h

/-- In the `SOLARIS` build a successful `serial_open` with `stop2` non-zero commits
attributes with `CSTOPB` set, whatever `tcgetattr` returned. -/
theorem serial_open_solaris_sets_cstopb (tty : Tty) (speed : Nat) (stop2 fd : Int)
    (t : Termios) (hs : stop2 ≠ 0) (h : serial_open true tty speed stop2 = (fd, some t)) :
    hasFlag t.c_cflag CSTOPB = true := by
  unfold serial_open at h
  split_ifs at h with h1
  · simp at h
  · rcases hg : tty.attrs with _ | got
    · simp [hg] at h
    · simp only [hg] at h
      have hb : (rawMode true got stop2).c_cflag.testBit 6 = true := by
        simp only [rawMode, hs, if_true, ne_eq, not_false_eq_true]
        rw [Nat.testBit_or]
        have : CSTOPB.testBit 6 = true := by decide
        rw [this]
        simp
      have hc := testBit_cstopb_cfsetospeed _ speed (testBit_cstopb_cfsetispeed _ speed hb)
      split_ifs at h
      · simp only [Prod.mk.injEq, Option.some.injEq] at h
        rw [← h.2]
        exact hasFlag_cstopb_of_testBit _ hc
      · simp only [Prod.mk.injEq, Option.some.injEq] at h
        rw [← h.2]
        exact hasFlag_cstopb_of_testBit _ hc

/-- On a non-empty queue whose poll reports any positive value, the loop of
`serial_rx` stores the first queued byte at its start index. -/
theorem rxLoop_queue_first (ready : Int) (peer : List Nat → List Nat)
    (accepted : List Nat → Int → Int) (eofOnEmpty : Bool) (t term : Nat) (hr : 0 < ready)
    (n i c : Nat) (cs : List Nat) (m : Buf) :
    (rxLoop (queueLine ready peer accepted eofOnEmpty) t term (n + 1) i (c :: cs) m).buf i = c := by
  have hp : t ≠ 0 → 0 < ((queueLine ready peer accepted eofOnEmpty).waitfor (c :: cs)
      (int_of_unsigned t)).1 := by
    intro _
    rw [queue_waitfor_cons]
    exact hr
  rw [rxLoop_succ, rxBody_read _ t term i (c :: cs) m hp]
  have hb := fun (tm : Nat) (m1 : Buf) =>
    (rxLoop_buf (queueLine ready peer accepted eofOnEmpty) t tm n (i + 1) cs m1).2.1 i (by omega)
  by_cases hz : term = 0
  · simp [rxReadStore, queue_pollPass, queue_read_cons, Body.pre, hz, hb, bufSet]
  · by_cases hc : c = term
    · simp [rxReadStore, queue_pollPass, queue_read_cons, Body.pre, hz, hc, bufSet]
    · simp [rxReadStore, queue_pollPass, queue_read_cons, Body.pre, hz, hc, hb, bufSet]

/-- On the queue line whose poll reports ready with a value above `1`, `serial_io`
reads nothing before its `write`, and the first stale byte ends up in `rxbuf[0]`. -/
theorem serial_io_keeps_stale_when_ready_above_one (ready : Int) (peer : List Nat → List Nat)
    (accepted : List Nat → Int → Int) (eofOnEmpty : Bool) (c : Nat) (cs txbuf : List Nat)
    (m : Buf) (txbytes rxmaxbytes : Int) (timeoutms termchr fuel : Nat) (hr : 1 < ready)
    (hmax : 0 < rxmaxbytes) (hacc : accepted txbuf txbytes = txbytes) :
    ∃ o post b,
      serial_io (queueLine ready peer accepted eofOnEmpty) (fuel + 1) (c :: cs) txbuf (some m)
        txbytes rxmaxbytes timeoutms termchr = some o ∧
      o.evs = Ev.poll 10 ready :: Ev.write txbuf txbytes txbytes :: post ∧
      o.buf = some b ∧ b 0 = c := by
  have hne : rxmaxbytes ≠ 0 := by omega
  have hr1 : ready ≠ 1 := by omega
  have hr2 : ¬ ready = -1 := by omega
  obtain ⟨k, hk⟩ : ∃ k, rxmaxbytes.toNat = k + 1 := ⟨rxmaxbytes.toNat - 1, by omega⟩
  have hfl := rxflushLoop_queue_not_one ready peer accepted eofOnEmpty 10 hr1 c cs fuel 0
  simp only [hr2, if_false] at hfl
  have hfirst := rxLoop_queue_first ready peer accepted eofOnEmpty timeoutms termchr
    (by omega) k 0 c (cs ++ peer (txbuf.take txbytes.toNat))
    (memset0 m (size_t_of_int rxmaxbytes))
  have hio : serial_io (queueLine ready peer accepted eofOnEmpty) (fuel + 1) (c :: cs) txbuf
      (some m) txbytes rxmaxbytes timeoutms termchr =
      some ((serial_rx (queueLine ready peer accepted eofOnEmpty)
        (c :: cs ++ peer (txbuf.take txbytes.toNat)) (some m)
        rxmaxbytes timeoutms termchr).pre
          ([Ev.poll 10 ready] ++ [Ev.write txbuf txbytes txbytes])) := by
    simp [serial_io, serial_rxflush, hfl, hne, ioWriteRx, queue_write, hacc]
  rw [serial_rx_some _ _ _ _ _ _ hne, hk] at hio
  exact ⟨_, _, _, hio, rfl, rfl, hfirst⟩

end RptSerial
